import Mathlib

/-!
Verification development for the IPASS 2D racing-game engine (`src/game.py`).

The Python source is shallowly embedded below.  Machine/`numpy` indexing is
modelled explicitly: a `numpy` array of extent `n` accepts an integer index
`i` with `-n ≤ i < n`, where a negative index wraps to `i + n`, and any other
index raises `IndexError`.  Continuous quantities (`float` in the source) are
modelled over a linear ordered field (`ℚ` or `ℝ`); Python 3 `round` is
round-half-to-even.  Fallible operations return `Option` / explicit result
types whose error constructor models an uncaught Python exception.
-/

namespace IPASS

/-- The track environment produced by `Environment.__init__`: grid extents,
the boundary mask (`boundaries`, x-y indexed after the transpose) and the
finish pixel list (`finish`). -/
structure Env where
  width : ℕ
  height : ℕ
  wall : ℕ × ℕ → Bool
  finish : List (ℕ × ℕ)

/-- Result of indexing a `numpy` axis of extent `n` with a Python int `i`:
in-range indices are returned, negative indices with `-n ≤ i` wrap to the
opposite end, anything else raises `IndexError` (modelled as `none`). -/
def npIdx (n : ℕ) (i : ℤ) : Option ℕ :=
  if 0 ≤ i ∧ i < (n : ℤ) then some i.toNat
  else if -(n : ℤ) ≤ i ∧ i < 0 then some (i + n).toNat
  else none

/-- The grid cell actually accessed when a coordinate tuple `p` indexes the
`boundaries` / `distance_matrix` arrays; `none` models a raised `IndexError`. -/
def aliasCell (env : Env) (p : ℤ × ℤ) : Option (ℕ × ℕ) :=
  match npIdx env.width p.1, npIdx env.height p.2 with
  | some x, some y => some (x, y)
  | _, _ => none

/-- A cell is touched by the write loop of `_recursive_distance` when some
tuple of the current point set indexes it. -/
def inP (env : Env) (P : Finset (ℤ × ℤ)) (c : ℕ × ℕ) : Prop :=
  ∃ p ∈ P, aliasCell env p = some c

instance (env : Env) (P : Finset (ℤ × ℤ)) (c : ℕ × ℕ) : Decidable (inP env P c) :=
  Finset.decidableExistsAndFinset

/-- The write loop of `_recursive_distance`: `for point in points:
distance_matrix[point] = distance`, as a functional array update. -/
def writeLayer (env : Env) (D : ℕ × ℕ → ℕ) (P : Finset (ℤ × ℤ)) (d : ℕ) : ℕ × ℕ → ℕ :=
  fun c => if inP env P c then d else D c

/-- The neighbor offsets examined by `_recursive_distance`:
`for dx in [-1, 1]: for dy in [-1, 1]`. -/
def diagOffsets : List (ℤ × ℤ) := [(-1, -1), (-1, 1), (1, -1), (1, 1)]

/-- The admission test of `_recursive_distance`:
`(not self.boundaries[one_further]) and distance_matrix[one_further] == 0`,
with a raised `IndexError` caught and treated as inadmissible. -/
def admissible (env : Env) (D : ℕ × ℕ → ℕ) (q : ℤ × ℤ) : Bool :=
  match aliasCell env q with
  | some c => !env.wall c && (D c == 0)
  | none => false

/-- The set `valid_next_points` computed by one layer of `_recursive_distance`. -/
def validNext (env : Env) (D : ℕ × ℕ → ℕ) (P : Finset (ℤ × ℤ)) : Finset (ℤ × ℤ) :=
  (P.biUnion fun p => (diagOffsets.map fun δ => (p.1 + δ.1, p.2 + δ.2)).toFinset).filter
    fun q => admissible env D q

/-- Embedding of `Environment._recursive_distance`, with an explicit fuel parameter
bounding the recursion depth; `none` models non-termination within `fuel`
nested calls (the Python source recurses without any bound). -/
def recursive_distance (env : Env) : ℕ → (ℕ × ℕ → ℕ) → Finset (ℤ × ℤ) → ℕ → Option (ℕ × ℕ → ℕ)
  | 0, _, _, _ => none
  | fuel + 1, D, P, d =>
    let D' := writeLayer env D P d
    let next := validNext env D' P
    if next = ∅ then some D' else recursive_distance env fuel D' next (d + 1)

/-- The seed point list of `get_distance_matrix`:
`finish_points = [(i[0], i[1]) for i in self.finish]`. -/
def seedPoints (env : Env) : Finset (ℤ × ℤ) :=
  (env.finish.map fun c => ((c.1 : ℤ), (c.2 : ℤ))).toFinset

/-- Embedding of `Environment.get_distance_matrix`: the recursive fill started from the
finish points on an all-zero matrix with distance 1.  Fuel `width*height + 1`
is sufficient (proved below: the zero-cell count strictly decreases). -/
def get_distance_matrix (env : Env) : ℕ × ℕ → ℕ :=
  (recursive_distance env (env.width * env.height + 1) (fun _ => 0) (seedPoints env) 1).getD
    fun _ => 0

/-- The in-grid cells of the boundary / distance arrays. -/
def gridCells (env : Env) : Finset (ℕ × ℕ) :=
  Finset.range env.width ×ˢ Finset.range env.height

/-- Number of in-grid cells currently holding distance value 0. -/
def zeroCount (env : Env) (D : ℕ × ℕ → ℕ) : ℕ :=
  ((gridCells env).filter fun c => D c = 0).card

/-- In-grid diagonal adjacency between grid cells (both cells in-grid and
both coordinates differing by exactly one). -/
def diagAdj (env : Env) (u v : ℕ × ℕ) : Prop :=
  u.1 < env.width ∧ u.2 < env.height ∧ v.1 < env.width ∧ v.2 < env.height ∧
    ((v.1 : ℤ) = u.1 + 1 ∨ (v.1 : ℤ) = u.1 - 1) ∧
    ((v.2 : ℤ) = u.2 + 1 ∨ (v.2 : ℤ) = u.2 - 1)

instance (env : Env) (u v : ℕ × ℕ) : Decidable (diagAdj env u v) := by
  unfold diagAdj; infer_instance

/-- The admissible (in-grid, non-wall) diagonal neighbors of a cell, used to
state the spec's local distance equation. -/
def admissibleDiagNbrs (env : Env) (c : ℕ × ℕ) : Finset (ℕ × ℕ) :=
  (gridCells env).filter fun n => diagAdj env c n ∧ env.wall n = false

/-- Orthogonal neighbor offsets, used only to state the spec's
"reachable solely via orthogonal moves" clause. -/
def orthOffsets : List (ℤ × ℤ) := [(-1, 0), (1, 0), (0, -1), (0, 1)]

/-- One expansion step of in-grid reachability from a cell set through
non-wall cells along the given offsets (stated from the spec's notion of
step-reachability, used only to state claims). -/
def reachStep (env : Env) (offs : List (ℤ × ℤ)) (S : Finset (ℕ × ℕ)) : Finset (ℕ × ℕ) :=
  S ∪ (gridCells env).filter fun v =>
    env.wall v = false ∧ ∃ u ∈ S, ∃ δ ∈ offs, (v.1 : ℤ) = u.1 + δ.1 ∧ (v.2 : ℤ) = u.2 + δ.2

/-- Iterated in-grid reachability from the finish cells along the given
offsets; `width * height` iterations reach the fixpoint. -/
def reachFromFinish (env : Env) (offs : List (ℤ × ℤ)) : Finset (ℕ × ℕ) :=
  (reachStep env offs)^[env.width * env.height] ((gridCells env).filter fun c => c ∈ env.finish)

/-! ### Track parsing (`Environment.parse_track`) -/

/-- An RGB pixel (red, green, blue), each channel a `ℕ` (8-bit in practice). -/
def RGB : Type := ℕ × ℕ × ℕ

instance : DecidableEq RGB := instDecidableEqProd

def RGB.red (p : RGB) : ℕ := p.1

def RGB.green (p : RGB) : ℕ := p.2.1

def RGB.blue (p : RGB) : ℕ := p.2.2

/-- An input image as PIL delivers it: a rectangular list of rows, each row a
list of RGB pixels (`raw_data[y][x]`). -/
def Image : Type := List (List RGB)

/-- Embedding of `np.transpose(raw_data, (1, 0, 2))`: swap the two spatial axes so pixels
are addressed as `[x][y]`. -/
def transposedData (img : Image) : List (List RGB) := List.transpose img

/-- Extract one channel of the (transposed) pixel data. -/
def channel (f : RGB → ℕ) (data : List (List RGB)) : List (List ℕ) :=
  data.map fun row => row.map f

/-- Embedding of `np.transpose(np.nonzero(a))` on a 2-D array: the index pairs of the
nonzero entries, in row-major order of the array. -/
def nonzeroIdx (a : List (List ℕ)) : List (ℕ × ℕ) :=
  (a.enum.map fun ir =>
    ir.2.enum.filterMap fun jv => if jv.2 ≠ 0 then some (ir.1, jv.1) else none).flatten

/-- The start-candidate list of `parse_track`: index pairs of the nonzero
entries of the (transposed) green channel. -/
def startCandidates (img : Image) : List (ℕ × ℕ) :=
  nonzeroIdx (channel RGB.green (transposedData img))

/-- Failure modes of track construction.  `indexError` models the uncaught
`IndexError` raised by `parse_track` when indexing an empty candidate array.
`configurationError` is modelled from the spec: the spec requires a distinct
`ConfigurationError` for a missing start pixel, which the source does not
define; the constructor exists only so that the spec's requirement can be
stated and compared against the code's behavior. -/
inductive TrackError where
  | indexError : TrackError
  | configurationError : TrackError
deriving DecidableEq

instance {ε α : Type} [DecidableEq ε] [DecidableEq α] : DecidableEq (Except ε α)
  | .ok a, .ok b => decidable_of_iff (a = b) (by simp)
  | .error a, .error b => decidable_of_iff (a = b) (by simp)
  | .ok _, .error _ => isFalse fun h => Except.noConfusion h
  | .error _, .ok _ => isFalse fun h => Except.noConfusion h

/-- Embedding of `Environment.parse_track`: boundaries are pixels with red `≥ 128`;
the finish list collects the pixels whose blue channel is nonzero
(`np.nonzero`); the start is the first pixel whose green channel is nonzero,
and taking element `[0]` of an empty candidate array raises `IndexError`. -/
def parse_track (img : Image) :
    Except TrackError (List (List Bool) × List (ℕ × ℕ) × (ℕ × ℕ)) :=
  let t := transposedData img
  let boundaries := t.map fun row => row.map fun p => decide (128 ≤ p.red)
  let finish := nonzeroIdx (channel RGB.blue t)
  match startCandidates img with
  | [] => .error .indexError
  | s :: _ => .ok (boundaries, finish, s)

/-- Embedding of `Environment.__init__`: parse the image and package grid extents,
boundary mask and finish list (`none` when construction raises). -/
def env_of_image (img : Image) : Option Env :=
  match parse_track img with
  | .ok (b, f, _) =>
    some ⟨(transposedData img).length, img.length,
      fun c => ((b.getD c.1 []).getD c.2 false), f⟩
  | .error _ => none

/-! ### Rounding and coordinate translation (`Environment.translate`,
`Environment.location_to_pixel`) -/

/-- Python 3 `int(round(x))`: round to the nearest integer, ties to the even
neighbor. -/
def roundHalfEven {α : Type} [LinearOrderedField α] [FloorRing α] (x : α) : ℤ :=
  if Int.fract x < 1 / 2 then ⌊x⌋
  else if 1 / 2 < Int.fract x then ⌊x⌋ + 1
  else if ⌊x⌋ % 2 = 0 then ⌊x⌋ else ⌊x⌋ + 1

/-- The spec's rounding rule, stated from its words for comparison:
round to the nearest integer, ties away from zero. -/
def roundHalfAway {α : Type} [LinearOrderedField α] [FloorRing α] (x : α) : ℤ :=
  if 0 ≤ x then ⌊x + 1 / 2⌋ else -⌊-x + 1 / 2⌋

/-- Embedding of `Environment.location_to_pixel`: round both components of a continuous
coordinate with Python's `round`. -/
def location_to_pixel {α : Type} [LinearOrderedField α] [FloorRing α] (c : α × α) : ℤ × ℤ :=
  (roundHalfEven c.1, roundHalfEven c.2)

/-- Embedding of `Environment.translate` without pixel rounding: polar displacement with
the angle convention `radians(rotation - 90)`. -/
noncomputable def translate (position : ℝ × ℝ) (distance rotation : ℝ) : ℝ × ℝ :=
  (position.1 + Real.cos ((rotation - 90) * (Real.pi / 180)) * distance,
   position.2 + Real.sin ((rotation - 90) * (Real.pi / 180)) * distance)

/-- Embedding of `Environment.translate` with `pixel=True`: the translated coordinate
rounded through `location_to_pixel`. -/
noncomputable def translate_pixel (position : ℝ × ℝ) (distance rotation : ℝ) : ℤ × ℤ :=
  location_to_pixel (translate position distance rotation)

/-! ### Ray casting (`Environment.ray_trace_to_wall`) -/

/-- Outcome of a ray trace: `crash` models an uncaught `IndexError` from
probing `boundaries` outside the grid, `noHit` models returning `None`,
`hit i` models returning the line index `i` of the first wall pixel. -/
inductive RayResult where
  | crash : RayResult
  | noHit : RayResult
  | hit : ℕ → RayResult
deriving DecidableEq

/-- Modelled from the spec: the `bresenham` module used by the source
(`bresenham.get_line`) is not under `src/`; per the spec it rasterizes the
discrete line from the origin pixel to the target pixel with an integer
Bresenham walk, emitting the origin pixel first.  The fuel (the L1 extent of
the segment) is an upper bound on the number of steps the walk needs. -/
def bresAux (x1 y1 dx dy sx sy : ℤ) : ℕ → ℤ → ℤ → ℤ → List (ℤ × ℤ)
  | 0, x, y, _ => [(x, y)]
  | fuel + 1, x, y, err =>
    if x = x1 ∧ y = y1 then [(x, y)]
    else
      let e2 := 2 * err
      let err1 := if dy ≤ e2 then err + dy else err
      let x' := if dy ≤ e2 then x + sx else x
      let err2 := if e2 ≤ dx then err1 + dx else err1
      let y' := if e2 ≤ dx then y + sy else y
      (x, y) :: bresAux x1 y1 dx dy sx sy fuel x' y' err2

/-- Modelled from the spec: `bresenham.get_line(origin, target)`. -/
def get_line (p q : ℤ × ℤ) : List (ℤ × ℤ) :=
  let dx := |q.1 - p.1|
  let dy := -|q.2 - p.2|
  let sx : ℤ := if p.1 < q.1 then 1 else -1
  let sy : ℤ := if p.2 < q.2 then 1 else -1
  bresAux q.1 q.2 dx dy sx sy (dx - dy).toNat p.1 p.2 (dx + dy)

/-- The probe loop of `ray_trace_to_wall`: walk the line pixels in order with
their index; `self.boundaries[pixel]` raises (uncaught) on an invalid index. -/
def rayLoop (env : Env) : List (ℤ × ℤ) → ℕ → RayResult
  | [], _ => .noHit
  | p :: ps, i =>
    match aliasCell env p with
    | none => .crash
    | some c => if env.wall c then .hit i else rayLoop env ps (i + 1)

/-- Embedding of `Environment.ray_trace_to_wall`: rasterize from the rounded origin to the
rounded polar target and walk the pixels. -/
noncomputable def ray_trace_to_wall (env : Env) (position : ℝ × ℝ) (angle distance : ℝ) :
    RayResult :=
  rayLoop env (get_line (location_to_pixel position) (translate_pixel position distance angle)) 0

/-! ### Physics (`Engine._act`) and the game loop (`Engine._turn`) -/

/-- Constant `Engine.ACCELERATION`. -/
noncomputable def ACCELERATION : ℝ := 5

/-- Constant `Engine.ROTATION_SPEED`. -/
noncomputable def ROTATION_SPEED : ℝ := 180

/-- Constant `Engine.SECONDS_PER_FRAME`. -/
noncomputable def SECONDS_PER_FRAME : ℝ := 1 / 30

/-- Python's `%` on reals with a positive modulus: the representative of `x`
in `[0, y)`. -/
noncomputable def pymod (x y : ℝ) : ℝ := x - y * ⌊x / y⌋

/-- Embedding of `Engine._act`, speed and rotation updates:
`player.speed = max(player.speed + acceleration_command * ACCELERATION * delta_time, 0)` and
`player.rotation = (rotation + rotation_command * ROTATION_SPEED * delta_time + 360) % 360`. -/
noncomputable def act (speed rotation acceleration_command rotation_command delta_time : ℝ) :
    ℝ × ℝ :=
  (max (speed + acceleration_command * ACCELERATION * delta_time) 0,
   pymod (rotation + rotation_command * ROTATION_SPEED * delta_time + 360) 360)

/-- Embedding of `Engine._act`, destination: `translate(player.position, player.speed,
player.rotation)` evaluated on the updated speed and rotation. -/
noncomputable def act_destination (position : ℝ × ℝ)
    (speed rotation acceleration_command rotation_command delta_time : ℝ) : ℝ × ℝ :=
  let sr := act speed rotation acceleration_command rotation_command delta_time
  translate position sr.1 sr.2

/-- Values of `Engine.game_status` (`RUNNING = 0`, `FINISHED = 1`). -/
inductive GameStatus where
  | running : GameStatus
  | finished : GameStatus
deriving DecidableEq

/-- Engine state for the claims about the game loop: the status and the
player list, with the per-player record abstract (the Player capability is an
external collaborator). -/
structure EngineState (π : Type) where
  game_status : GameStatus
  players : List π

/-- Embedding of `Engine._is_game_over`: true iff no player is alive. -/
def is_game_over {π : Type} (alive : π → Bool) (players : List π) : Bool :=
  players.all fun p => !alive p

/-- Embedding of `Engine._turn`: run the sense-plan-act-resolve step for each alive player
(`_player_turn` is a no-op on dead players), then set `game_status` to
`FINISHED` if `_is_game_over`.  `player_turn` abstracts the per-player
processing, which consults the external Player capability. -/
def turn {π : Type} (alive : π → Bool) (player_turn : π → π) (e : EngineState π) :
    EngineState π :=
  let ps := e.players.map fun p => if alive p then player_turn p else p
  { game_status := if is_game_over alive ps then .finished else e.game_status,
    players := ps }

/-! ### Concrete fixtures used by counterexamples and witnesses -/

/-- Test fixture: an open (wall-free) 3×3 track whose only finish cell is the
corner `(0, 0)`. -/
def env3 : Env := ⟨3, 3, fun _ => false, [(0, 0)]⟩

/-- Test fixture: a 1×1 track whose single cell is a wall. -/
def envWall : Env := ⟨1, 1, fun _ => true, []⟩

/-- Test fixture: a 2×2 track with a single wall cell and no finish cells. -/
def envWallOnly : Env := ⟨2, 2, fun c => decide (c = (0, 0)), []⟩

/-! ### Helper lemmas: numpy indexing -/

theorem npIdx_some_iff {n : ℕ} {i : ℤ} {x : ℕ} :
    npIdx n i = some x ↔
      (0 ≤ i ∧ i < (n : ℤ) ∧ (x : ℤ) = i) ∨
      (-(n : ℤ) ≤ i ∧ i < 0 ∧ (x : ℤ) = i + n) := by
  unfold npIdx
  split_ifs with h1 h2 <;> simp [Option.some.injEq] <;> omega

theorem npIdx_lt {n : ℕ} {i : ℤ} {x : ℕ} (h : npIdx n i = some x) : x < n := by
  rw [npIdx_some_iff] at h; omega

theorem npIdx_natCast {n m : ℕ} (h : m < n) : npIdx n (m : ℤ) = some m := by
  rw [npIdx_some_iff]; omega

theorem npIdx_natCast_inv {n m x : ℕ} (h : npIdx n (m : ℤ) = some x) : x = m ∧ m < n := by
  rw [npIdx_some_iff] at h; omega

theorem npIdx_shift {n : ℕ} {i : ℤ} {x : ℕ} (h : npIdx n i = some x) {x' : ℕ} {e : ℤ}
    (hx : (x' : ℤ) = (x : ℤ) + e) (hlt : x' < n) : npIdx n (i + e) = some x' := by
  rw [npIdx_some_iff] at h ⊢; omega

theorem aliasCell_eq_some_iff {env : Env} {p : ℤ × ℤ} {c : ℕ × ℕ} :
    aliasCell env p = some c ↔
      npIdx env.width p.1 = some c.1 ∧ npIdx env.height p.2 = some c.2 := by
  unfold aliasCell
  cases h1 : npIdx env.width p.1 <;> cases h2 : npIdx env.height p.2 <;>
    simp [Prod.ext_iff]

theorem aliasCell_lt {env : Env} {p : ℤ × ℤ} {c : ℕ × ℕ} (h : aliasCell env p = some c) :
    c.1 < env.width ∧ c.2 < env.height := by
  rw [aliasCell_eq_some_iff] at h
  exact ⟨npIdx_lt h.1, npIdx_lt h.2⟩

theorem aliasCell_natCast {env : Env} {c : ℕ × ℕ} (h1 : c.1 < env.width)
    (h2 : c.2 < env.height) : aliasCell env ((c.1 : ℤ), (c.2 : ℤ)) = some c := by
  rw [aliasCell_eq_some_iff]
  exact ⟨npIdx_natCast h1, npIdx_natCast h2⟩

theorem aliasCell_natCast_inv {env : Env} {a b : ℕ} {c : ℕ × ℕ}
    (h : aliasCell env ((a : ℤ), (b : ℤ)) = some c) : c = (a, b) := by
  rw [aliasCell_eq_some_iff] at h
  obtain ⟨h1, h2⟩ := h
  obtain ⟨e1, -⟩ := npIdx_natCast_inv h1
  obtain ⟨e2, -⟩ := npIdx_natCast_inv h2
  exact Prod.ext e1 e2

theorem aliasCell_shift {env : Env} {p : ℤ × ℤ} {u : ℕ × ℕ}
    (h : aliasCell env p = some u) {v : ℕ × ℕ} {δ : ℤ × ℤ}
    (h1 : (v.1 : ℤ) = (u.1 : ℤ) + δ.1) (h2 : (v.2 : ℤ) = (u.2 : ℤ) + δ.2)
    (hv1 : v.1 < env.width) (hv2 : v.2 < env.height) :
    aliasCell env (p.1 + δ.1, p.2 + δ.2) = some v := by
  rw [aliasCell_eq_some_iff] at h ⊢
  exact ⟨npIdx_shift h.1 h1 hv1, npIdx_shift h.2 h2 hv2⟩

/-! ### Helper lemmas: one layer of the fill -/

theorem writeLayer_inP {env : Env} {P : Finset (ℤ × ℤ)} {c : ℕ × ℕ} (D : ℕ × ℕ → ℕ) (d : ℕ)
    (h : inP env P c) : writeLayer env D P d c = d := if_pos h

theorem writeLayer_not_inP {env : Env} {P : Finset (ℤ × ℤ)} {c : ℕ × ℕ} (D : ℕ × ℕ → ℕ)
    (d : ℕ) (h : ¬inP env P c) : writeLayer env D P d c = D c := if_neg h

theorem writeLayer_eq_zero {env : Env} {P : Finset (ℤ × ℤ)} {c : ℕ × ℕ} {D : ℕ × ℕ → ℕ}
    {d : ℕ} (hd : 1 ≤ d) : writeLayer env D P d c = 0 ↔ D c = 0 ∧ ¬inP env P c := by
  unfold writeLayer
  split_ifs with h
  · simp [h]; omega
  · simp [h]

theorem admissible_iff {env : Env} {D : ℕ × ℕ → ℕ} {q : ℤ × ℤ} :
    admissible env D q = true ↔
      ∃ c, aliasCell env q = some c ∧ env.wall c = false ∧ D c = 0 := by
  unfold admissible
  cases h : aliasCell env q <;>
    simp [Bool.and_eq_true, Bool.not_eq_true', beq_iff_eq]

theorem mem_validNext_iff {env : Env} {D : ℕ × ℕ → ℕ} {P : Finset (ℤ × ℤ)} {q : ℤ × ℤ} :
    q ∈ validNext env D P ↔
      (∃ p ∈ P, ∃ δ ∈ diagOffsets, q = (p.1 + δ.1, p.2 + δ.2)) ∧
        admissible env D q = true := by
  unfold validNext
  simp only [Finset.mem_filter, Finset.mem_biUnion, List.mem_toFinset, List.mem_map]
  constructor
  · rintro ⟨⟨p, hp, δ, hδ, rfl⟩, ha⟩
    exact ⟨⟨p, hp, δ, hδ, rfl⟩, ha⟩
  · rintro ⟨⟨p, hp, δ, hδ, rfl⟩, ha⟩
    exact ⟨⟨p, hp, δ, hδ, rfl⟩, ha⟩

/-- Every point of `valid_next_points` indexes an in-grid cell that is
non-wall and currently zero. -/
theorem validNext_prop {env : Env} {D : ℕ × ℕ → ℕ} {P : Finset (ℤ × ℤ)} :
    ∀ q ∈ validNext env D P, ∀ c, aliasCell env q = some c →
      env.wall c = false ∧ D c = 0 := by
  intro q hq c hc
  obtain ⟨-, ha⟩ := mem_validNext_iff.mp hq
  obtain ⟨c', hc', hw, hz⟩ := admissible_iff.mp ha
  rw [hc] at hc'
  obtain rfl := Option.some.inj hc'
  exact ⟨hw, hz⟩

theorem inP_validNext {env : Env} {D : ℕ × ℕ → ℕ} {P : Finset (ℤ × ℤ)} {c : ℕ × ℕ}
    (h : inP env (validNext env D P) c) : env.wall c = false ∧ D c = 0 := by
  obtain ⟨q, hq, hc⟩ := h
  exact validNext_prop q hq c hc

theorem diagAdj_symm {env : Env} {u v : ℕ × ℕ} (h : diagAdj env u v) : diagAdj env v u := by
  unfold diagAdj at h ⊢
  omega

/-- From any tuple indexing cell `u`, the diagonal probe toward an in-grid
diagonal neighbor `v` of `u` indexes exactly `v`, whatever the tuple's
(possibly negative, wrapping) representation. -/
theorem diagAdj_probe {env : Env} {p : ℤ × ℤ} {u v : ℕ × ℕ}
    (hp : aliasCell env p = some u) (hadj : diagAdj env u v) :
    ∃ δ ∈ diagOffsets, aliasCell env (p.1 + δ.1, p.2 + δ.2) = some v := by
  obtain ⟨hu1, hu2, hv1, hv2, hx, hy⟩ := hadj
  refine ⟨((v.1 : ℤ) - (u.1 : ℤ), (v.2 : ℤ) - (u.2 : ℤ)), ?_, ?_⟩
  · simp only [diagOffsets, List.mem_cons, List.not_mem_nil, or_false, Prod.ext_iff]
    omega
  · exact aliasCell_shift hp (by omega) (by omega) hv1 hv2

/-- Probing an in-grid, non-wall diagonal neighbor `v` from a tuple of the
current point set either finds `v` already assigned or admits it into
`valid_next_points`. -/
theorem probe_dichotomy {env : Env} {D : ℕ × ℕ → ℕ} {P : Finset (ℤ × ℤ)} {p : ℤ × ℤ}
    {u v : ℕ × ℕ} (hpP : p ∈ P) (hp : aliasCell env p = some u) (hadj : diagAdj env u v)
    (hw : env.wall v = false) : D v ≠ 0 ∨ inP env (validNext env D P) v := by
  obtain ⟨δ, hδ, hal⟩ := diagAdj_probe hp hadj
  by_cases hz : D v = 0
  · right
    refine ⟨(p.1 + δ.1, p.2 + δ.2), ?_, hal⟩
    exact mem_validNext_iff.mpr
      ⟨⟨p, hpP, δ, hδ, rfl⟩, admissible_iff.mpr ⟨v, hal, hw, hz⟩⟩
  · exact Or.inl hz

/-! ### Termination of the fill -/

theorem mem_gridCells {env : Env} {c : ℕ × ℕ} :
    c ∈ gridCells env ↔ c.1 < env.width ∧ c.2 < env.height := by
  simp [gridCells, Finset.mem_product, Finset.mem_range]

/-- Each recursive layer of the fill assigns a positive distance to at least
one in-grid cell that held 0, so the count of zero cells strictly decreases
and bounds the recursion depth. -/
theorem fill_isSome_aux (env : Env) :
    ∀ (fuel : ℕ) (D : ℕ × ℕ → ℕ) (P : Finset (ℤ × ℤ)) (d : ℕ), 1 ≤ d →
      zeroCount env (writeLayer env D P d) < fuel →
      (recursive_distance env fuel D P d).isSome := by
  intro fuel
  induction fuel with
  | zero => intro D P d _ h; omega
  | succ n ih =>
    intro D P d hd h
    by_cases hnext : validNext env (writeLayer env D P d) P = ∅
    · simp [recursive_distance, hnext]
    · have hstep : recursive_distance env (n + 1) D P d =
          recursive_distance env n (writeLayer env D P d)
            (validNext env (writeLayer env D P d) P) (d + 1) := by
        simp [recursive_distance, hnext]
      rw [hstep]
      apply ih _ _ _ (by omega)
      have hsub : (gridCells env).filter
            (fun c => writeLayer env (writeLayer env D P d)
              (validNext env (writeLayer env D P d) P) (d + 1) c = 0) ⊂
          (gridCells env).filter (fun c => writeLayer env D P d c = 0) := by
        rw [Finset.ssubset_iff_of_subset]
        · obtain ⟨q, hq⟩ := Finset.nonempty_iff_ne_empty.mpr hnext
          obtain ⟨-, ha⟩ := mem_validNext_iff.mp hq
          obtain ⟨c, hal, hw, hz⟩ := admissible_iff.mp ha
          refine ⟨c, ?_, ?_⟩
          · exact Finset.mem_filter.mpr ⟨mem_gridCells.mpr (aliasCell_lt hal), hz⟩
          · intro hmem
            have := (Finset.mem_filter.mp hmem).2
            rw [writeLayer_inP _ _ ⟨q, hq, hal⟩] at this
            omega
        · intro c hc
          obtain ⟨hg, hzz⟩ := Finset.mem_filter.mp hc
          exact Finset.mem_filter.mpr ⟨hg, ((writeLayer_eq_zero (by omega)).mp hzz).1⟩
      have := Finset.card_lt_card hsub
      unfold zeroCount at h ⊢
      omega

/-- The fill always terminates within `width * height + 1` nested calls. -/
theorem fill_isSome (env : Env) :
    (recursive_distance env (env.width * env.height + 1) (fun _ => 0)
      (seedPoints env) 1).isSome := by
  apply fill_isSome_aux env _ _ _ _ (le_refl 1)
  have h1 : zeroCount env (writeLayer env (fun _ => 0) (seedPoints env) 1) ≤
      (gridCells env).card := Finset.card_filter_le _ _
  have h2 : (gridCells env).card = env.width * env.height := by
    simp [gridCells, Finset.card_product, Finset.card_range]
  omega

theorem get_distance_matrix_eq (env : Env) :
    recursive_distance env (env.width * env.height + 1) (fun _ => 0) (seedPoints env) 1 =
      some (get_distance_matrix env) := by
  obtain ⟨R, hR⟩ := Option.isSome_iff_exists.mp (fill_isSome env)
  rw [hR]
  unfold get_distance_matrix
  rw [hR]
  rfl

/-! ### Cells modified by the fill -/

/-- A cell whose value the fill changes is either directly indexed by the
initial point set or is a non-wall cell (every later layer admits only
non-wall cells). -/
theorem fill_touched (env : Env) :
    ∀ (fuel : ℕ) (D : ℕ × ℕ → ℕ) (P : Finset (ℤ × ℤ)) (d : ℕ) (R : ℕ × ℕ → ℕ),
      recursive_distance env fuel D P d = some R →
      ∀ c, R c ≠ D c → inP env P c ∨ env.wall c = false := by
  intro fuel
  induction fuel with
  | zero => intro D P d R h; exact absurd h (by simp [recursive_distance])
  | succ n ih =>
    intro D P d R h c hc
    by_cases hnext : validNext env (writeLayer env D P d) P = ∅
    · have hR : some (writeLayer env D P d) = some R := by
        simpa [recursive_distance, hnext] using h
      obtain rfl := Option.some.inj hR
      by_contra hn
      push_neg at hn
      rw [writeLayer_not_inP _ _ hn.1] at hc
      exact hc rfl
    · have hrec : recursive_distance env n (writeLayer env D P d)
          (validNext env (writeLayer env D P d) P) (d + 1) = some R := by
        simpa [recursive_distance, hnext] using h
      by_cases hc' : R c = writeLayer env D P d c
      · rw [hc'] at hc
        left
        by_contra hn
        rw [writeLayer_not_inP _ _ hn] at hc
        exact hc rfl
      · rcases ih _ _ _ _ hrec c hc' with hin | hw
        · exact Or.inr (inP_validNext hin).1
        · exact Or.inr hw

/-- A point of the seed set indexes exactly the finish cell it came from (or
nothing, when that finish cell is out of grid). -/
theorem inP_seeds {env : Env} {c : ℕ × ℕ} (h : inP env (seedPoints env) c) :
    c ∈ env.finish := by
  obtain ⟨p, hp, hal⟩ := h
  unfold seedPoints at hp
  rw [List.mem_toFinset, List.mem_map] at hp
  obtain ⟨f, hf, rfl⟩ := hp
  obtain rfl : c = f := by
    have := aliasCell_natCast_inv hal
    simp [this]
  exact hf

/-! ### Layered-fill invariant -/

/-- Main invariant of the layered fill.  For any call after the seed layer
(point set made of valid tuples indexing non-wall, still-zero cells; earlier
assignments all below the current distance and locally consistent), the
result preserves earlier assignments, assigns the current layer exactly `d`,
assigns only non-wall cells at `d` or beyond, and gives any two in-grid,
non-wall, diagonally adjacent cells with nonzero values distances that differ
by at most one. -/
theorem fill_bfs (env : Env) :
    ∀ (fuel : ℕ) (D : ℕ × ℕ → ℕ) (P : Finset (ℤ × ℤ)) (d : ℕ) (R : ℕ × ℕ → ℕ),
      recursive_distance env fuel D P d = some R →
      1 ≤ d →
      (∀ p ∈ P, ∀ c, aliasCell env p = some c → env.wall c = false ∧ D c = 0) →
      (∀ c, D c ≠ 0 → D c < d) →
      (∀ u v, D u ≠ 0 → env.wall u = false → diagAdj env u v → env.wall v = false →
        (D v ≠ 0 ∨ inP env P v) ∧ (D v ≠ 0 → D u ≤ D v + 1) ∧
          (inP env P v → d ≤ D u + 1)) →
      (∀ u v, inP env P u → diagAdj env u v → env.wall v = false → D v ≠ 0 →
        d ≤ D v + 1) →
      (∀ c, D c ≠ 0 → R c = D c) ∧
        (∀ c, inP env P c → R c = d) ∧
        (∀ c, D c = 0 → R c ≠ 0 → env.wall c = false ∧ d ≤ R c) ∧
        (∀ u v, R u ≠ 0 → env.wall u = false → diagAdj env u v → env.wall v = false →
          R v ≠ 0 ∧ R u ≤ R v + 1 ∧ R v ≤ R u + 1) := by
  intro fuel
  induction fuel with
  | zero => intro D P d R h; exact absurd h (by simp [recursive_distance])
  | succ n ih =>
    intro D P d R h hd hi hii hiii hiv
    have hPD : ∀ c, inP env P c → env.wall c = false ∧ D c = 0 := by
      rintro c ⟨p, hp, hal⟩
      exact hi p hp c hal
    have hD'1 : ∀ c, inP env P c → writeLayer env D P d c = d :=
      fun c hc => writeLayer_inP _ _ hc
    have hD'2 : ∀ c, ¬inP env P c → writeLayer env D P d c = D c :=
      fun c hc => writeLayer_not_inP _ _ hc
    have hD'cases : ∀ c, writeLayer env D P d c ≠ 0 → inP env P c ∨ D c ≠ 0 := by
      intro c hc
      by_cases h' : inP env P c
      · exact Or.inl h'
      · rw [hD'2 c h'] at hc
        exact Or.inr hc
    by_cases hnext : validNext env (writeLayer env D P d) P = ∅
    · have hR : writeLayer env D P d = R := by
        simpa [recursive_distance, hnext] using h
      subst hR
      refine ⟨?_, hD'1, ?_, ?_⟩
      · intro c hc
        exact hD'2 c (fun hin => hc (hPD c hin).2)
      · intro c hz hnz
        rcases hD'cases c hnz with hin | hD
        · exact ⟨(hPD c hin).1, by rw [hD'1 c hin]⟩
        · exact absurd hz hD
      · intro u v hu hwu hadj hwv
        rcases hD'cases u hu with hinu | hDu
        · obtain ⟨p, hpP, hpu⟩ := hinu
          have hRu : writeLayer env D P d u = d := hD'1 u ⟨p, hpP, hpu⟩
          obtain ⟨δ, hδ, hal⟩ := diagAdj_probe hpu hadj
          have hD'v : writeLayer env D P d v ≠ 0 := by
            intro hz
            have hmem : (p.1 + δ.1, p.2 + δ.2) ∈ validNext env (writeLayer env D P d) P :=
              mem_validNext_iff.mpr
                ⟨⟨p, hpP, δ, hδ, rfl⟩, admissible_iff.mpr ⟨v, hal, hwv, hz⟩⟩
            rw [hnext] at hmem
            exact absurd hmem (Finset.not_mem_empty _)
          refine ⟨hD'v, ?_, ?_⟩
          · rcases hD'cases v hD'v with hinv | hDv
            · rw [hD'1 v hinv, hRu]
              omega
            · rw [hD'2 v (fun h' => hDv (hPD v h').2), hRu]
              exact hiv u v ⟨p, hpP, hpu⟩ hadj hwv hDv
          · rcases hD'cases v hD'v with hinv | hDv
            · rw [hD'1 v hinv, hRu]
              omega
            · rw [hD'2 v (fun h' => hDv (hPD v h').2), hRu]
              have := hii v hDv
              omega
        · have hnu : ¬inP env P u := fun h' => hDu (hPD u h').2
          have hRu : writeLayer env D P d u = D u := hD'2 u hnu
          have h3 := hiii u v hDu hwu hadj hwv
          rcases h3.1 with hDv | hinv
          · have hRv : writeLayer env D P d v = D v := hD'2 v (fun h' => hDv (hPD v h').2)
            have hvu := (hiii v u hDv hwv (diagAdj_symm hadj) hwu).2.1 hDu
            refine ⟨by rw [hRv]; exact hDv, ?_, ?_⟩
            · rw [hRu, hRv]
              exact h3.2.1 hDv
            · rw [hRu, hRv]
              exact hvu
          · have hRv : writeLayer env D P d v = d := hD'1 v hinv
            have h4 := h3.2.2 hinv
            have h5 := hii u hDu
            refine ⟨by rw [hRv]; omega, ?_, ?_⟩
            · rw [hRu, hRv]
              omega
            · rw [hRu, hRv]
              omega
    · have hrec : recursive_distance env n (writeLayer env D P d)
          (validNext env (writeLayer env D P d) P) (d + 1) = some R := by
        simpa [recursive_distance, hnext] using h
      have hni : ∀ p ∈ validNext env (writeLayer env D P d) P, ∀ c,
          aliasCell env p = some c → env.wall c = false ∧ writeLayer env D P d c = 0 :=
        fun p hp c hc => validNext_prop p hp c hc
      have hnii : ∀ c, writeLayer env D P d c ≠ 0 → writeLayer env D P d c < d + 1 := by
        intro c hc
        rcases hD'cases c hc with hin | hD
        · rw [hD'1 c hin]
          omega
        · rw [hD'2 c (fun h' => hD (hPD c h').2)]
          have := hii c hD
          omega
      have hniii : ∀ u v, writeLayer env D P d u ≠ 0 → env.wall u = false →
          diagAdj env u v → env.wall v = false →
          (writeLayer env D P d v ≠ 0 ∨
            inP env (validNext env (writeLayer env D P d) P) v) ∧
          (writeLayer env D P d v ≠ 0 →
            writeLayer env D P d u ≤ writeLayer env D P d v + 1) ∧
          (inP env (validNext env (writeLayer env D P d) P) v →
            d + 1 ≤ writeLayer env D P d u + 1) := by
        intro u v hu hwu hadj hwv
        rcases hD'cases u hu with hinu | hDu
        · obtain ⟨p, hpP, hpu⟩ := hinu
          have hRu : writeLayer env D P d u = d := hD'1 u ⟨p, hpP, hpu⟩
          refine ⟨probe_dichotomy hpP hpu hadj hwv, ?_, ?_⟩
          · intro hv
            rcases hD'cases v hv with hinv | hDv
            · rw [hD'1 v hinv, hRu]
              omega
            · rw [hD'2 v (fun h' => hDv (hPD v h').2), hRu]
              exact hiv u v ⟨p, hpP, hpu⟩ hadj hwv hDv
          · intro _
            rw [hRu]
        · have hnu : ¬inP env P u := fun h' => hDu (hPD u h').2
          have hRu : writeLayer env D P d u = D u := hD'2 u hnu
          have h3 := hiii u v hDu hwu hadj hwv
          have hvne : writeLayer env D P d v ≠ 0 := by
            rcases h3.1 with hDv | hinv
            · rw [hD'2 v (fun h' => hDv (hPD v h').2)]
              exact hDv
            · rw [hD'1 v hinv]
              omega
          refine ⟨Or.inl hvne, ?_, ?_⟩
          · intro _
            by_cases hinv : inP env P v
            · rw [hD'1 v hinv, hRu]
              have := h3.2.2 hinv
              have := hii u hDu
              omega
            · rw [hD'2 v hinv, hRu]
              rcases h3.1 with hDv | hinv'
              · exact h3.2.1 hDv
              · exact absurd hinv' hinv
          · intro hinv
            exact absurd (inP_validNext hinv).2 hvne
      have hniv : ∀ u v, inP env (validNext env (writeLayer env D P d) P) u →
          diagAdj env u v → env.wall v = false → writeLayer env D P d v ≠ 0 →
          d + 1 ≤ writeLayer env D P d v + 1 := by
        intro u v hinu hadj hwv hv
        obtain ⟨hwu, hzu⟩ := inP_validNext hinu
        by_cases hinv : inP env P v
        · rw [hD'1 v hinv]
        · rw [hD'2 v hinv] at hv
          have h3 := hiii v u hv hwv (diagAdj_symm hadj) hwu
          rcases h3.1 with hDu | hinu'
          · exfalso
            apply absurd hzu
            by_cases hinu'' : inP env P u
            · rw [hD'1 u hinu'']
              omega
            · rw [hD'2 u hinu'']
              exact hDu
          · exfalso
            rw [hD'1 u hinu'] at hzu
            omega
      obtain ⟨ihc1, ihc2, ihc3, ihc4⟩ := ih _ _ _ _ hrec (by omega) hni hnii hniii hniv
      refine ⟨?_, ?_, ?_, ihc4⟩
      · intro c hc
        have hD'c : writeLayer env D P d c = D c := hD'2 c (fun h' => hc (hPD c h').2)
        rw [ihc1 c (by rw [hD'c]; exact hc), hD'c]
      · intro c hc
        have h1 : writeLayer env D P d c = d := hD'1 c hc
        rw [ihc1 c (by rw [h1]; omega), h1]
      · intro c hz hnz
        by_cases hin : inP env P c
        · have h1 : writeLayer env D P d c = d := hD'1 c hin
          rw [ihc1 c (by rw [h1]; omega), h1]
          exact ⟨(hPD c hin).1, le_refl d⟩
        · have h1 : writeLayer env D P d c = 0 := by
            rw [hD'2 c hin]
            exact hz
          obtain ⟨hw, hle⟩ := ihc3 c h1 hnz
          exact ⟨hw, by omega⟩

/-! ### Claim C1 -/

/-- C1, amended: propagation examines only the four diagonal offsets
(±1, ±1), applied to stored coordinate tuples under numpy indexing (negative
coordinates wrap to the opposite edge).  Consequently, for every non-finish
cell with a positive distance, every admissible (in-grid, non-wall) diagonal
neighbor also has a positive distance and the two distances differ by at
most 1 — hence `d ≤ 1 + min` over those neighbors.  The spec's exact
equation `d = 1 + min`, and the claim that orthogonally-only-reachable cells
keep 0, fail in general because wrapped probes reach extra cells
(counterexample below). -/
theorem distance_field_diagonal (env : Env) (c n : ℕ × ℕ)
    (h0 : get_distance_matrix env c ≠ 0) (hcf : c ∉ env.finish)
    (hadj : diagAdj env c n) (hnw : env.wall n = false) :
    (get_distance_matrix env n ≠ 0 ∧
      get_distance_matrix env c ≤ get_distance_matrix env n + 1 ∧
      get_distance_matrix env n ≤ get_distance_matrix env c + 1) ∧
    ∀ (D : ℕ × ℕ → ℕ) (P : Finset (ℤ × ℤ)) (q : ℤ × ℤ), q ∈ validNext env D P →
      ∃ p ∈ P, ∃ δ ∈ diagOffsets, q = (p.1 + δ.1, p.2 + δ.2) := by
  refine ⟨?_, fun D P q hq => (mem_validNext_iff.mp hq).1⟩
  have hmain := get_distance_matrix_eq env
  by_cases hnext : validNext env (writeLayer env (fun _ => 0) (seedPoints env) 1)
      (seedPoints env) = ∅
  · have hR : writeLayer env (fun _ => 0) (seedPoints env) 1 = get_distance_matrix env := by
      simpa [recursive_distance, hnext] using hmain
    exfalso
    rw [← hR] at h0
    apply hcf
    apply inP_seeds
    by_contra hin
    rw [writeLayer_not_inP _ _ hin] at h0
    exact h0 rfl
  · have hrec : recursive_distance env (env.width * env.height)
        (writeLayer env (fun _ => 0) (seedPoints env) 1)
        (validNext env (writeLayer env (fun _ => 0) (seedPoints env) 1) (seedPoints env))
        (1 + 1) = some (get_distance_matrix env) := by
      simpa [recursive_distance, hnext] using hmain
    have hD1cases : ∀ x, writeLayer env (fun _ => 0) (seedPoints env) 1 x ≠ 0 →
        inP env (seedPoints env) x ∧ writeLayer env (fun _ => 0) (seedPoints env) 1 x = 1 := by
      intro x hx
      by_cases hin : inP env (seedPoints env) x
      · exact ⟨hin, writeLayer_inP _ _ hin⟩
      · rw [writeLayer_not_inP _ _ hin] at hx
        exact absurd rfl hx
    obtain ⟨c1, c2, c3, c4⟩ :=
      fill_bfs env (env.width * env.height) _ _ _ _ hrec (by omega)
        (fun p hp cc hc => validNext_prop p hp cc hc)
        (by
          intro x hx
          rw [(hD1cases x hx).2]
          omega)
        (by
          intro u v hu hwu hadj' hwv
          obtain ⟨⟨p, hpP, hpu⟩, hDu1⟩ := hD1cases u hu
          refine ⟨probe_dichotomy hpP hpu hadj' hwv, ?_, ?_⟩
          · intro hv
            rw [hDu1, (hD1cases v hv).2]
            omega
          · intro _
            rw [hDu1])
        (by
          intro u v _ _ _ hv
          rw [(hD1cases v hv).2])
    have hD1c : writeLayer env (fun _ => 0) (seedPoints env) 1 c = 0 := by
      by_contra h'
      exact hcf (inP_seeds (hD1cases c h').1)
    have hwc : env.wall c = false := (c3 c hD1c h0).1
    exact c4 c n h0 hwc hadj hnw

/-- C1 counterexample: on the open 3×3 track with finish `(0,0)`, cell
`(2,2)` holds distance 2 although `1 + min` over its admissible diagonal
neighbors (only `(1,1)`, also distance 2) is 3 — the finish tuple's wrapped
probe `(-1,-1)` indexed `(2,2)` in the second layer; moreover `(0,1)` is
orthogonally reachable from the finish and not in-grid-diagonally reachable,
yet holds distance 3 instead of the claimed 0. -/
theorem distance_field_local_eq_cex :
    get_distance_matrix env3 (2, 2) ≠ 0 ∧ (2, 2) ∉ env3.finish ∧
    get_distance_matrix env3 (2, 2) ≠
      1 + ((admissibleDiagNbrs env3 (2, 2)).image (get_distance_matrix env3)).min.getD 0 ∧
    env3.wall (0, 1) = false ∧ (0, 1) ∈ reachFromFinish env3 orthOffsets ∧
    (0, 1) ∉ reachFromFinish env3 diagOffsets ∧ get_distance_matrix env3 (0, 1) ≠ 0 := by
  decide

/-- Witness for the amended C1 theorem on the open 3×3 track: cell `(1,1)`
(distance 2, not a finish cell) and its admissible diagonal neighbor
`(0,0)`. -/
theorem distance_field_diagonal_witness :
    (get_distance_matrix env3 (0, 0) ≠ 0 ∧
      get_distance_matrix env3 (1, 1) ≤ get_distance_matrix env3 (0, 0) + 1 ∧
      get_distance_matrix env3 (0, 0) ≤ get_distance_matrix env3 (1, 1) + 1) ∧
    ∀ (D : ℕ × ℕ → ℕ) (P : Finset (ℤ × ℤ)) (q : ℤ × ℤ), q ∈ validNext env3 D P →
      ∃ p ∈ P, ∃ δ ∈ diagOffsets, q = (p.1 + δ.1, p.2 + δ.2) :=
  distance_field_diagonal env3 (1, 1) (0, 0) (by decide) (by decide) (by decide) (by decide)

/-! ### Claim C9 -/

/-- C9: the recursive distance fill terminates for every finite grid and
finish set — each layer assigns a positive distance only to cells currently
0, the count of zero cells strictly decreases, and the recursion depth is
bounded by the number of grid cells, so fuel `width * height + 1` always
suffices. -/
theorem recursive_distance_terminates (env : Env) :
    (recursive_distance env (env.width * env.height + 1) (fun _ => 0)
      (seedPoints env) 1).isSome :=
  fill_isSome env

/-! ### Claim C6 -/

/-- C6, amended: every wall cell that is not in the finish set keeps
distance 0.  Wall cells in the finish set are seeded to 1 by the first write
loop, which does not consult the boundary mask (counterexample below). -/
theorem wall_distance_zero (env : Env) (c : ℕ × ℕ) (hw : env.wall c = true)
    (hf : c ∉ env.finish) : get_distance_matrix env c = 0 := by
  by_contra h0
  rcases fill_touched env _ _ _ _ _ (get_distance_matrix_eq env) c h0 with hin | hwf
  · exact hf (inP_seeds hin)
  · simp [hw] at hwf

/-- C6 counterexample: the 1×1 image whose sole pixel is simultaneously wall
(red 128), start (green 1) and finish (blue 1) yields a distance field whose
wall cell `(0,0)` holds 1, not 0. -/
theorem wall_finish_distance_cex :
    (env_of_image [[((128 : ℕ), 1, 1)]]).map
      (fun e => (e.wall (0, 0), decide ((0, 0) ∈ e.finish), get_distance_matrix e (0, 0))) =
      some (true, true, 1) := by
  decide

/-- Witness for the amended C6 theorem: a 2×2 track with a non-finish wall
cell at `(0,0)`, whose distance is 0. -/
theorem wall_distance_zero_witness : get_distance_matrix envWallOnly (0, 0) = 0 :=
  wall_distance_zero envWallOnly (0, 0) (by decide) (by decide)

/-! ### Claim C5 -/

/-- C5 counterexample: Python 3 `round` is round-half-to-even, so
`location_to_pixel (1/2, 5/2) = (0, 2)`, while the spec's
round-half-away-from-zero rule would give `(1, 3)`. -/
theorem round_half_to_even_cex :
    location_to_pixel ((1 : ℚ) / 2, (5 : ℚ) / 2) = (0, 2) ∧
    roundHalfAway ((1 : ℚ) / 2) = 1 ∧ roundHalfAway ((5 : ℚ) / 2) = 3 := by
  have f1 : ⌊(1 : ℚ) / 2⌋ = 0 := by norm_num
  have f2 : ⌊(5 : ℚ) / 2⌋ = 2 := by norm_num
  have e1 : roundHalfEven ((1 : ℚ) / 2) = 0 := by
    unfold roundHalfEven
    rw [Int.fract, f1]
    norm_num
  have e2 : roundHalfEven ((5 : ℚ) / 2) = 2 := by
    unfold roundHalfEven
    rw [Int.fract, f2]
    norm_num
  refine ⟨?_, ?_, ?_⟩
  · unfold location_to_pixel
    rw [Prod.ext_iff]
    exact ⟨e1, e2⟩
  · unfold roundHalfAway
    rw [if_pos (by norm_num : (0 : ℚ) ≤ 1 / 2)]
    norm_num
  · unfold roundHalfAway
    rw [if_pos (by norm_num : (0 : ℚ) ≤ 5 / 2)]
    norm_num

/-- C5, amended: `location_to_pixel` rounds each component to the nearest
integer with round-half-to-even (Python 3 `round`): the result is within 1/2
of the input, agrees with round-half-away-from-zero whenever the fractional
part is not exactly 1/2, and on an exact tie rounds to the even neighbor
(not away from zero). -/
theorem location_to_pixel_half_even (q : ℚ) :
    location_to_pixel (q, q) = (roundHalfEven q, roundHalfEven q) ∧
    |q - (roundHalfEven q : ℚ)| ≤ 1 / 2 ∧
    (Int.fract q ≠ 1 / 2 → roundHalfEven q = roundHalfAway q) ∧
    (Int.fract q = 1 / 2 → roundHalfEven q % 2 = 0) := by
  have hfr0 : (0 : ℚ) ≤ Int.fract q := Int.fract_nonneg q
  have hfr1 : Int.fract q < 1 := Int.fract_lt_one q
  have hq : (⌊q⌋ : ℚ) + Int.fract q = q := Int.floor_add_fract q
  refine ⟨rfl, ?_, ?_, ?_⟩
  · unfold roundHalfEven
    split_ifs with h1 h2 h3
    · rw [abs_le]
      constructor <;> linarith
    · rw [abs_le]
      constructor <;> push_cast <;> linarith
    · rw [abs_le]
      constructor <;> linarith
    · rw [abs_le]
      constructor <;> push_cast <;> linarith
  · intro hne
    rcases lt_or_gt_of_ne hne with hlt | hgt
    · have he : roundHalfEven q = ⌊q⌋ := by
        unfold roundHalfEven
        rw [if_pos hlt]
      rw [he]
      unfold roundHalfAway
      split_ifs with hq0
      · have h : ⌊q + 1 / 2⌋ = ⌊q⌋ := by
          rw [Int.floor_eq_iff]
          constructor
          · linarith
          · linarith
        rw [h]
      · push_neg at hq0
        have h : ⌊-q + 1 / 2⌋ = -⌊q⌋ := by
          rw [Int.floor_eq_iff]
          constructor
          · push_cast
            linarith
          · push_cast
            linarith
        rw [h]
        omega
    · have he : roundHalfEven q = ⌊q⌋ + 1 := by
        unfold roundHalfEven
        rw [if_neg (by linarith), if_pos hgt]
      rw [he]
      unfold roundHalfAway
      split_ifs with hq0
      · have h : ⌊q + 1 / 2⌋ = ⌊q⌋ + 1 := by
          rw [Int.floor_eq_iff]
          constructor
          · push_cast
            linarith
          · push_cast
            linarith
        rw [h]
      · push_neg at hq0
        have h : ⌊-q + 1 / 2⌋ = -⌊q⌋ - 1 := by
          rw [Int.floor_eq_iff]
          constructor
          · push_cast
            linarith
          · push_cast
            linarith
        rw [h]
        omega
  · intro htie
    unfold roundHalfEven
    rw [if_neg (by rw [htie]; norm_num), if_neg (by rw [htie]; norm_num)]
    split_ifs with hev
    · exact hev
    · omega

/-- Witness for the amended C5 theorem: at 1/4 the two rounding rules agree,
and at the tie 1/2 the result 0 is even. -/
theorem location_to_pixel_half_even_witness :
    roundHalfEven ((1 : ℚ) / 4) = roundHalfAway ((1 : ℚ) / 4) ∧
    roundHalfEven ((1 : ℚ) / 2) % 2 = 0 :=
  ⟨(location_to_pixel_half_even ((1 : ℚ) / 4)).2.2.1
      (by rw [Int.fract, show ⌊(1 : ℚ) / 4⌋ = 0 by norm_num]; norm_num),
   (location_to_pixel_half_even ((1 : ℚ) / 2)).2.2.2
      (by rw [Int.fract, show ⌊(1 : ℚ) / 2⌋ = 0 by norm_num]; norm_num)⟩

/-! ### Claim C2 -/

/-- A walk over line pixels that all carry a valid (possibly negative,
wrapping) numpy index never raises. -/
theorem rayLoop_ne_crash (env : Env) :
    ∀ (l : List (ℤ × ℤ)) (i : ℕ), (∀ p ∈ l, (aliasCell env p).isSome) →
      rayLoop env l i ≠ .crash := by
  intro l
  induction l with
  | nil =>
    intro i _
    simp [rayLoop]
  | cons p ps ih =>
    intro i hall
    have hp := hall p (List.mem_cons_self p ps)
    obtain ⟨c, hc⟩ := Option.isSome_iff_exists.mp hp
    show rayLoop env (p :: ps) i ≠ .crash
    unfold rayLoop
    rw [hc]
    dsimp only
    split_ifs with hw
    · intro h
      exact RayResult.noConfusion h
    · exact ih (i + 1) fun q hq => hall q (List.mem_cons_of_mem _ hq)

/-- C2, amended: the fill admits a probed point only when it carries a
valid numpy index (out-of-grid indices `i < -n` or `i ≥ n` raise `IndexError`,
which the fill catches and treats as inadmissible — but negative indices
`-n ≤ i < 0` wrap to the opposite edge and can be admitted), and the wall
probe loop of `ray_trace_to_wall` cannot crash as long as every rasterized
pixel carries a valid numpy index; when the line leaves the valid index range
before hitting a wall the probe raises an uncaught `IndexError`
(counterexample below). -/
theorem out_of_grid_probes (env : Env) :
    (∀ (D : ℕ × ℕ → ℕ) (P : Finset (ℤ × ℤ)) (q : ℤ × ℤ), q ∈ validNext env D P →
      ∃ c, aliasCell env q = some c ∧ env.wall c = false ∧ D c = 0) ∧
    ∀ (l : List (ℤ × ℤ)) (i : ℕ), (∀ p ∈ l, (aliasCell env p).isSome) →
      rayLoop env l i ≠ .crash := by
  constructor
  · intro D P q hq
    exact admissible_iff.mp (mem_validNext_iff.mp hq).2
  · exact rayLoop_ne_crash env

/-- Witness for the amended C2 theorem: a one-pixel in-grid walk does not
crash. -/
theorem out_of_grid_probes_witness :
    rayLoop env3 [((0 : ℤ), (0 : ℤ))] 0 ≠ RayResult.crash :=
  (out_of_grid_probes env3).2 [(0, 0)] 0 (by decide)

theorem roundHalfEven_intCast {α : Type} [LinearOrderedField α] [FloorRing α] (n : ℤ) :
    roundHalfEven ((n : α)) = n := by
  have h : (0 : α) < 1 / 2 := by norm_num
  unfold roundHalfEven
  rw [Int.fract_intCast, Int.floor_intCast, if_pos h]

/-- The origin `(0, 0)` rounds to the pixel `(0, 0)`. -/
theorem location_to_pixel_zero : location_to_pixel ((0 : ℝ), 0) = ((0 : ℤ), 0) := by
  have hz : roundHalfEven (0 : ℝ) = 0 := by
    have h : roundHalfEven (((0 : ℤ) : ℝ)) = 0 := roundHalfEven_intCast 0
    simpa using h
  unfold location_to_pixel
  rw [Prod.ext_iff]
  exact ⟨hz, hz⟩

/-- Casting a ray of length 10 at angle 180° from the origin targets the
pixel `(0, 10)` exactly. -/
theorem translate_pixel_down : translate_pixel ((0 : ℝ), 0) 10 180 = ((0 : ℤ), 10) := by
  have ht : translate ((0 : ℝ), 0) 10 180 = (0, 10) := by
    unfold translate
    have h : ((180 : ℝ) - 90) * (Real.pi / 180) = Real.pi / 2 := by ring
    rw [h, Real.cos_pi_div_two, Real.sin_pi_div_two]
    norm_num
  have hz : roundHalfEven (0 : ℝ) = 0 := by
    have h : roundHalfEven (((0 : ℤ) : ℝ)) = 0 := roundHalfEven_intCast 0
    simpa using h
  have hten : roundHalfEven (10 : ℝ) = 10 := by
    have h : roundHalfEven (((10 : ℤ) : ℝ)) = 10 := roundHalfEven_intCast 10
    simpa using h
  unfold translate_pixel
  rw [ht]
  unfold location_to_pixel
  rw [Prod.ext_iff]
  exact ⟨hz, hten⟩

/-- C2 counterexample: on the wall-free 3×3 track, casting a ray of length
10 at angle 180° from the origin walks pixels `(0,0) … (0,10)`; the probe at
`(0,3)` indexes the boundary array out of range and raises an uncaught
`IndexError` — `ray_trace_to_wall` crashes instead of treating the probe as
"no wall". -/
theorem ray_trace_crash_cex : ray_trace_to_wall env3 (0, 0) 180 10 = .crash := by
  unfold ray_trace_to_wall
  rw [translate_pixel_down, location_to_pixel_zero]
  decide

/-! ### Claim C10 -/

/-- The Bresenham walk emits its starting pixel first. -/
theorem bresAux_cons (x1 y1 dx dy sx sy : ℤ) (fuel : ℕ) (x y err : ℤ) :
    ∃ rest, bresAux x1 y1 dx dy sx sy fuel x y err = (x, y) :: rest := by
  cases fuel with
  | zero => exact ⟨[], rfl⟩
  | succ n =>
    unfold bresAux
    split_ifs with h
    · exact ⟨[], rfl⟩
    · exact ⟨_, rfl⟩

/-- The rasterized line starts at the origin pixel. -/
theorem get_line_cons (p q : ℤ × ℤ) : ∃ rest, get_line p q = p :: rest :=
  bresAux_cons q.1 q.2 _ _ _ _ _ p.1 p.2 _

/-- C10: whenever the rounded origin pixel indexes a wall cell (also through
numpy's negative-index wrapping), `ray_trace_to_wall` returns index 0 — the
origin pixel is emitted first by the Bresenham rasterization and probed
first — for every angle and every distance. -/
theorem ray_origin_wall_zero (env : Env) (position : ℝ × ℝ) (angle distance : ℝ)
    (c : ℕ × ℕ) (h1 : aliasCell env (location_to_pixel position) = some c)
    (h2 : env.wall c = true) :
    ray_trace_to_wall env position angle distance = .hit 0 := by
  unfold ray_trace_to_wall
  obtain ⟨rest, hline⟩ := get_line_cons (location_to_pixel position)
    (translate_pixel position distance angle)
  rw [hline]
  unfold rayLoop
  rw [h1]
  dsimp only
  rw [if_pos h2]

/-- Witness for the C10 theorem: a sensor at the origin of an all-wall 1×1
track reads distance 0. -/
theorem ray_origin_wall_zero_witness : ray_trace_to_wall envWall (0, 0) 0 1 = .hit 0 :=
  ray_origin_wall_zero envWall (0, 0) 0 1 (0, 0)
    (by rw [location_to_pixel_zero]; decide) rfl

/-! ### Claim C7 -/

theorem pymod_eq_mul_fract (x y : ℝ) (hy : y ≠ 0) :
    pymod x y = y * Int.fract (x / y) := by
  have hxy : y * (x / y) = x := by field_simp
  unfold pymod Int.fract
  rw [mul_sub, hxy]

/-- C7: after every `_act` step, for arbitrary (even out-of-`[-1,1]`)
commands, the speed equals `max(0, speed + accelerationCommand * ACCELERATION
* delta_time)` and is never negative, and the rotation equals `(rotation +
rotationCommand * ROTATION_SPEED * delta_time + 360) mod 360` and always lies
in `[0, 360)`. -/
theorem act_spec (speed rotation acceleration_command rotation_command delta_time : ℝ) :
    (act speed rotation acceleration_command rotation_command delta_time).1 =
      max 0 (speed + acceleration_command * ACCELERATION * delta_time) ∧
    0 ≤ (act speed rotation acceleration_command rotation_command delta_time).1 ∧
    (act speed rotation acceleration_command rotation_command delta_time).2 =
      pymod (rotation + rotation_command * ROTATION_SPEED * delta_time + 360) 360 ∧
    0 ≤ (act speed rotation acceleration_command rotation_command delta_time).2 ∧
    (act speed rotation acceleration_command rotation_command delta_time).2 < 360 := by
  have hfr : pymod (rotation + rotation_command * ROTATION_SPEED * delta_time + 360) 360 =
      360 * Int.fract ((rotation + rotation_command * ROTATION_SPEED * delta_time + 360) / 360) :=
    pymod_eq_mul_fract _ _ (by norm_num)
  refine ⟨max_comm _ _, le_max_right _ _, rfl, ?_, ?_⟩
  · show 0 ≤ pymod (rotation + rotation_command * ROTATION_SPEED * delta_time + 360) 360
    rw [hfr]
    exact mul_nonneg (by norm_num) (Int.fract_nonneg _)
  · show pymod (rotation + rotation_command * ROTATION_SPEED * delta_time + 360) 360 < 360
    rw [hfr]
    have h := Int.fract_lt_one
      ((rotation + rotation_command * ROTATION_SPEED * delta_time + 360) / 360)
    nlinarith [Int.fract_nonneg
      ((rotation + rotation_command * ROTATION_SPEED * delta_time + 360) / 360)]

/-! ### Claim C8 -/

/-- C8: a tick that leaves no player alive moves the engine from `RUNNING`
to `FINISHED` at the end of that same tick (and only such a tick does), and
`FINISHED` is terminal — no later tick leaves it. -/
theorem turn_finished_same_tick {π : Type} (alive : π → Bool) (player_turn : π → π)
    (e : EngineState π) (h : e.game_status = .running) :
    ((turn alive player_turn e).game_status = .finished ↔
      is_game_over alive (turn alive player_turn e).players = true) ∧
    ∀ e' : EngineState π, e'.game_status = .finished →
      (turn alive player_turn e').game_status = .finished := by
  constructor
  · unfold turn
    dsimp only
    split_ifs with hover
    · simp [hover]
    · simp [h, hover]
  · intro e' h'
    unfold turn
    dsimp only
    split_ifs with hover
    · rfl
    · exact h'

/-- Witness for the C8 theorem: a single-player engine whose player dies in
the tick transitions to `FINISHED` in that tick. -/
theorem turn_finished_witness :
    ((turn (fun b : Bool => b) (fun _ => false)
        ⟨GameStatus.running, [true]⟩).game_status = GameStatus.finished ↔
      is_game_over (fun b : Bool => b)
        (turn (fun b : Bool => b) (fun _ => false)
          ⟨GameStatus.running, [true]⟩).players = true) ∧
    ∀ e' : EngineState Bool, e'.game_status = GameStatus.finished →
      (turn (fun b : Bool => b) (fun _ => false) e').game_status = GameStatus.finished :=
  turn_finished_same_tick (fun b => b) (fun _ => false) ⟨GameStatus.running, [true]⟩ rfl

/-! ### Claim C3 -/

/-- C3, evaluated at a failing input: `parse_track` uses `np.nonzero`, so a
pixel with green = 1 and blue = 1 (both far below the documented threshold
128) becomes the start and a finish cell, while red = 0 < 128 is correctly
not a wall — contradicting the spec and the source's own docstring, which
require green ≥ 128 and blue ≥ 128. -/
theorem parse_track_nonzero_threshold :
    parse_track [[((0 : ℕ), 1, 1)]] = .ok ([[false]], [(0, 0)], (0, 0)) ∧
    ¬128 ≤ (1 : ℕ) := by
  decide

/-! ### Claim C4 -/

/-- C4 counterexample: an image with no nonzero green pixel makes
`parse_track` raise an uncaught `IndexError` (indexing the empty candidate
array at `[0]`), not a `ConfigurationError`, which does not exist in the
source. -/
theorem no_start_pixel_cex :
    parse_track [[((0 : ℕ), 0, 1)]] = .error .indexError ∧
    TrackError.indexError ≠ TrackError.configurationError := by
  decide

/-- C4, amended: whenever the image contains no start-qualifying pixel (per
the code: no pixel with green > 0), construction aborts with an uncaught
`IndexError` from indexing the empty candidate array — the absence is not
validated explicitly and no `ConfigurationError` is raised. -/
theorem no_start_pixel_index_error (img : Image) (h : startCandidates img = []) :
    parse_track img = .error .indexError := by
  unfold parse_track
  rw [h]

/-- Witness for the amended C4 theorem: a 1×1 all-wall image with no green
pixel. -/
theorem no_start_pixel_index_error_witness :
    parse_track [[((128 : ℕ), 0, 0)]] = .error .indexError :=
  no_start_pixel_index_error [[((128 : ℕ), 0, 0)]] (by decide)

end IPASS
